import Mathlib

set_option maxHeartbeats 1000000

/-!
Verification of the cleaning pipeline of `clean_claims.py`.

The embedding models the core `clean_claims` function and its helpers
(`trim_whitespace`, `guess_date_columns`, `normalize_dates`, the two
`dropna` calls and `drop_duplicates`) over an explicit table of cells.
The pandas date parser (`pd.to_datetime(..., errors="coerce")` followed by
`.dt.strftime("%Y-%m-%d")`) is an external library; it is modelled here as
a best-effort per-cell parse of the common calendar-date text formats
(ISO `YYYY-MM-DD` and US `M/D/YYYY`, with the month/day swap fallback and
the pandas `Timestamp` year range), every unparseable cell coercing to the
missing marker.
-/

/-- A cell of the table: string, numeric, boolean, or the missing marker
(pandas `NaN`). -/
inductive Cell where
  | str (s : String)
  | num (n : Int)
  | boolean (b : Bool)
  | missing
deriving DecidableEq, Repr

/-- An in-memory table: named columns, and rows of cells aligned with the
columns by position (model of a pandas DataFrame). -/
structure Table where
  cols : List String
  rows : List (List Cell)
deriving DecidableEq, Repr

/-- Alignment: every row has exactly one cell per column. -/
def Table.WF (t : Table) : Prop := ∀ r ∈ t.rows, r.length = t.cols.length

instance (t : Table) : Decidable t.WF :=
  inferInstanceAs (Decidable (∀ r ∈ t.rows, r.length = t.cols.length))

/-- Python `str.strip()` on the character list: remove leading and trailing
whitespace. -/
def stripChars (l : List Char) : List Char :=
  ((l.dropWhile Char.isWhitespace).reverse.dropWhile Char.isWhitespace).reverse

/-- Python `str.strip()`. -/
def pyStrip (s : String) : String := ⟨stripChars s.data⟩

/-- One cell of `applymap(lambda x: x.strip() if isinstance(x, str) else x)`. -/
def trimCell : Cell → Cell
  | .str s => .str (pyStrip s)
  | c => c

/-- `trim_whitespace`: strip the column names (`rename`) and every string
cell (`applymap`). -/
def trim_whitespace (t : Table) : Table :=
  { cols := t.cols.map pyStrip, rows := t.rows.map (fun r => r.map trimCell) }

/-- `df.dropna(how="all")`: drop every row whose cells are all the missing
marker. -/
def dropnaRows (t : Table) : Table :=
  { cols := t.cols, rows := t.rows.filter (fun r => !(r.all (fun c => c == Cell.missing))) }

/-- Keep the entries of a list selected by a Boolean mask. -/
def applyMask {α : Type} : List Bool → List α → List α
  | b :: ms, x :: xs => if b then x :: applyMask ms xs else applyMask ms xs
  | _, _ => []

/-- Original index of the j-th entry kept by a mask. -/
def maskIdx : List Bool → Nat → Nat
  | [], _ => 0
  | b :: ms, j =>
      if b then (match j with | 0 => 0 | j' + 1 => maskIdx ms j' + 1)
      else maskIdx ms j + 1

/-- For each column position: does some row hold a non-missing cell there? -/
def colMask (t : Table) : List Bool :=
  (List.range t.cols.length).map
    (fun j => t.rows.any (fun r => !(r.getD j Cell.missing == Cell.missing)))

/-- `df.dropna(axis=1, how="all")`: drop every column whose cells (across the
current rows) are all the missing marker. -/
def dropnaCols (t : Table) : Table :=
  { cols := applyMask (colMask t) t.cols
    rows := t.rows.map (fun r => applyMask (colMask t) r) }

/-- Does `hay` start with `needle`? -/
def startsWithL : List Char → List Char → Bool
  | [], _ => true
  | _ :: _, [] => false
  | a :: as, b :: bs => (a == b) && startsWithL as bs

/-- Does `needle` occur as a contiguous substring of `hay`? -/
def hasSubL (needle : List Char) : List Char → Bool
  | [] => needle.isEmpty
  | c :: cs => startsWithL needle (c :: cs) || hasSubL needle cs

/-- Python `needle in hay` on strings. -/
def strContains (hay needle : String) : Bool := hasSubL needle.data hay.data

/-- The token set of the `guess_date_columns` heuristic. -/
def dateTokens : List String := ["date", "dob", "dos", "dt"]

/-- Python `str.lower()` on the name (character-wise lowercasing). -/
def pyLower (s : String) : String := ⟨s.data.map Char.toLower⟩

/-- `guess_date_columns`: the columns whose lowercased name contains one of
the four tokens as a bare substring. -/
def guess_date_columns (cols : List String) : List String :=
  cols.filter (fun c => dateTokens.any (fun tok => strContains (pyLower c) tok))

/-- Decimal digit character of `k % 10`. -/
def dg (k : Nat) : Char := Char.ofNat (48 + k % 10)

/-- The fixed-width `YYYY-MM-DD` rendering of `strftime("%Y-%m-%d")` (the
parser below only yields years of at most four digits). -/
def isoChars (y m d : Nat) : List Char :=
  [dg (y / 1000), dg (y / 100), dg (y / 10), dg y, '-', dg (m / 10), dg m, '-', dg (d / 10), dg d]

/-- String form of the fixed ISO calendar date. -/
def isoString (y m d : Nat) : String := ⟨isoChars y m d⟩

/-- Pattern check: 4 digits, '-', 2 digits, '-', 2 digits. -/
def isIsoDateString (s : String) : Bool :=
  match s.data with
  | [c1, c2, c3, c4, c5, c6, c7, c8, c9, c10] =>
      c1.isDigit && c2.isDigit && c3.isDigit && c4.isDigit && (c5 == '-') &&
      c6.isDigit && c7.isDigit && (c8 == '-') && c9.isDigit && c10.isDigit
  | _ => false

/-- Split a character list on a separator character. -/
def splitOnChar (sep : Char) : List Char → List (List Char)
  | [] => [[]]
  | c :: cs =>
      match splitOnChar sep cs with
      | [] => [[]]
      | h :: t => if c = sep then [] :: h :: t else (c :: h) :: t

/-- Decimal value of a nonempty all-digit character list. -/
def charsToNat (l : List Char) : Option Nat :=
  if l ≠ [] ∧ l.all Char.isDigit then
    some (l.foldl (fun a c => a * 10 + (c.toNat - 48)) 0)
  else none

def isLeap (y : Nat) : Bool := ((y % 4 == 0) && (y % 100 != 0)) || (y % 400 == 0)

def daysInMonth (y m : Nat) : Nat :=
  if m = 2 then (if isLeap y then 29 else 28)
  else if m = 4 ∨ m = 6 ∨ m = 9 ∨ m = 11 then 30
  else 31

/-- A valid Gregorian calendar date within the pandas `Timestamp` year
range (out-of-range dates raise and are coerced to `NaT`). -/
def ValidDate (y m d : Nat) : Prop :=
  1678 ≤ y ∧ y ≤ 2261 ∧ 1 ≤ m ∧ m ≤ 12 ∧ 1 ≤ d ∧ d ≤ daysInMonth y m

instance (y m d : Nat) : Decidable (ValidDate y m d) :=
  inferInstanceAs
    (Decidable (1678 ≤ y ∧ y ≤ 2261 ∧ 1 ≤ m ∧ m ≤ 12 ∧ 1 ≤ d ∧ d ≤ daysInMonth y m))

def mkValidDate (y m d : Nat) : Option (Nat × Nat × Nat) :=
  if ValidDate y m d then some (y, m, d) else none

/-- The `YYYY-MM-DD` route of the modelled parser: year, month, day fields. -/
def parseDashParts : List (List Char) → Option (Nat × Nat × Nat)
  | [ys, ms, ds] =>
      (charsToNat ys).bind fun y =>
      (charsToNat ms).bind fun m =>
      (charsToNat ds).bind fun d =>
      if ys.length = 4 ∧ ms.length ≤ 2 ∧ ds.length ≤ 2 then mkValidDate y m d
      else none
  | _ => none

/-- The `M/D/YYYY` route of the modelled parser: month first, with the
pandas day-first swap when the month field is out of range. -/
def parseSlashParts : List (List Char) → Option (Nat × Nat × Nat)
  | [ms, ds, ys] =>
      (charsToNat ms).bind fun a =>
      (charsToNat ds).bind fun b =>
      (charsToNat ys).bind fun y =>
      if ys.length = 4 ∧ ms.length ≤ 2 ∧ ds.length ≤ 2 then
        (mkValidDate y a b).orElse (fun _ => mkValidDate y b a)
      else none
  | _ => none

/-- Model of the external pandas date parser on one text cell: accepts
`YYYY-MM-DD` and `M/D/YYYY`, rejecting invalid calendar dates. -/
def parseDateChars (l : List Char) : Option (Nat × Nat × Nat) :=
  if (splitOnChar '-' l).length = 3 then parseDashParts (splitOnChar '-' l)
  else parseSlashParts (splitOnChar '/' l)

/-- Per-cell date parse: only string cells parse (numeric, Boolean and
missing cells coerce to `NaT`). -/
def cellParseDate : Cell → Option (Nat × Nat × Nat)
  | .str s => parseDateChars s.data
  | _ => none

/-- One cell of `to_datetime(col, errors="coerce").dt.strftime("%Y-%m-%d")`:
a parseable cell becomes the ISO date string, anything else becomes the
missing marker. -/
def normalizeCell (c : Cell) : Cell :=
  match cellParseDate c with
  | some (y, m, d) => .str (isoString y m d)
  | none => .missing

/-- One iteration of the `for col in date_cols` loop of `normalize_dates`:
`if col in df.columns: df[col] = ...` (absent names are skipped). -/
def applyDateCol (t : Table) (col : String) : Table :=
  if col ∈ t.cols then
    { cols := t.cols
      rows := t.rows.map (fun r =>
        List.zipWith (fun name c => if name = col then normalizeCell c else c) t.cols r) }
  else t

/-- The date-column list actually used: the caller's list when it is neither
`None` nor empty, else the guessed one. -/
def effectiveDateCols (cols : List String) (dc : Option (List String)) : List String :=
  match dc with
  | none => guess_date_columns cols
  | some l => if l.isEmpty then guess_date_columns cols else l

/-- `normalize_dates`: normalize each resolved date column in order. -/
def normalize_dates (t : Table) (dc : Option (List String)) : Table :=
  (effectiveDateCols t.cols dc).foldl applyDateCol t

/-- Deduplication with an accumulator of already-seen row values. -/
def dedupSeen (seen : List (List Cell)) : List (List Cell) → List (List Cell)
  | [] => []
  | r :: rs => if r ∈ seen then dedupSeen seen rs else r :: dedupSeen (r :: seen) rs

/-- `df.drop_duplicates()`: keep the first occurrence of each row value,
preserving order (followed by `reset_index(drop=True)`, the identity in
this positional model). -/
def dropDuplicates (l : List (List Cell)) : List (List Cell) := dedupSeen [] l

/-- Transcribed from the spec: walk the rows in order, keeping a row iff it
is not an exact duplicate of any earlier row of the original list. -/
def specDedupGo (earlier : List (List Cell)) : List (List Cell) → List (List Cell)
  | [] => []
  | r :: rs =>
      if r ∈ earlier then specDedupGo (earlier ++ [r]) rs
      else r :: specDedupGo (earlier ++ [r]) rs

/-- Spec-side deduplication entry point. -/
def specDedup (l : List (List Cell)) : List (List Cell) := specDedupGo [] l

/-- The statistics record assembled by `clean_claims`. -/
structure Stats where
  original_rows : Nat
  original_cols : Nat
  rows_after_dropna : Nat
  rows_after_dedup : Nat
  final_cols : Nat
  date_cols_used : List String
deriving DecidableEq, Repr

/-- `clean_claims`: the full cleaning pipeline with its statistics. -/
def clean_claims (t : Table) (dc : Option (List String)) : Table × Stats :=
  let t1 := trim_whitespace t
  let t2 := dropnaRows t1
  let t3 := dropnaCols t2
  let t4 := normalize_dates t3 dc
  let t5 : Table := { cols := t4.cols, rows := dropDuplicates t4.rows }
  (t5,
    { original_rows := t.rows.length
      original_cols := t.cols.length
      rows_after_dropna := t4.rows.length
      rows_after_dedup := t5.rows.length
      final_cols := t5.cols.length
      date_cols_used := effectiveDateCols t5.cols dc })

/-- A store of pandas DataFrame objects, indexed by identity. -/
structure Heap where
  objs : List Table
deriving DecidableEq, Repr

def emptyTable : Table := { cols := [], rows := [] }

def Heap.read (h : Heap) (i : Nat) : Table := h.objs.getD i emptyTable

def Heap.alloc (h : Heap) (t : Table) : Heap × Nat :=
  ({ objs := h.objs ++ [t] }, h.objs.length)

def Heap.write (h : Heap) (i : Nat) (t : Table) : Heap := { objs := h.objs.set i t }

/-- The in-place column-assignment loop of `normalize_dates` on the heap:
each `df[col] = ...` reads the frame at index `i` and writes the updated
frame back at `i`. -/
def normalizeDatesHeap (h : Heap) (i : Nat) (dc : Option (List String)) : Heap :=
  (effectiveDateCols (h.read i).cols dc).foldl
    (fun hh col => hh.write i (applyDateCol (hh.read i) col)) h

/-- `clean_claims` at the level of pandas object identity: `rename`,
`applymap`, both `dropna` calls and `drop_duplicates` allocate fresh
objects, while the date assignments write in place to the frame produced
by the second `dropna`. The caller's frame at `i0` is never written. -/
def cleanClaimsHeap (h0 : Heap) (i0 : Nat) (dc : Option (List String)) :
    Heap × Nat × Stats :=
  let t := h0.read i0
  let p1 := h0.alloc { cols := t.cols.map pyStrip, rows := t.rows }
  let t1 := p1.1.read p1.2
  let p2 := p1.1.alloc { cols := t1.cols, rows := t1.rows.map (fun r => r.map trimCell) }
  let t2 := p2.1.read p2.2
  let p3 := p2.1.alloc (dropnaRows t2)
  let t3 := p3.1.read p3.2
  let p4 := p3.1.alloc (dropnaCols t3)
  let h5 := normalizeDatesHeap p4.1 p4.2 dc
  let t5 := h5.read p4.2
  let p6 := h5.alloc { cols := t5.cols, rows := dropDuplicates t5.rows }
  let t6 := p6.1.read p6.2
  (p6.1, p6.2,
    { original_rows := t.rows.length
      original_cols := t.cols.length
      rows_after_dropna := t5.rows.length
      rows_after_dedup := t6.rows.length
      final_cols := t6.cols.length
      date_cols_used := effectiveDateCols t6.cols dc })

/-- No row of the table is entirely the missing marker. -/
def Table.noMissingRow (t : Table) : Prop := ∀ r ∈ t.rows, ∃ c ∈ r, c ≠ Cell.missing

instance (t : Table) : Decidable t.noMissingRow :=
  inferInstanceAs (Decidable (∀ r ∈ t.rows, ∃ c ∈ r, c ≠ Cell.missing))

/-- No column of the table is entirely the missing marker. -/
def Table.noMissingCol (t : Table) : Prop :=
  ∀ j < t.cols.length, ∃ r ∈ t.rows, r.getD j Cell.missing ≠ Cell.missing

instance (t : Table) : Decidable t.noMissingCol :=
  inferInstanceAs (Decidable (∀ j < t.cols.length, ∃ r ∈ t.rows, r.getD j Cell.missing ≠ Cell.missing))

/-- Is the head of the character list absent or not whitespace? -/
def noWSHead : List Char → Bool
  | [] => true
  | c :: _ => !c.isWhitespace

/-- Every column name and every string cell of the table is fixed under
whitespace stripping. -/
def Table.trimmed (t : Table) : Prop :=
  (∀ s ∈ t.cols, pyStrip s = s) ∧ (∀ r ∈ t.rows, ∀ c ∈ r, trimCell c = c)

/-- A one-cell table whose only column is a guessed date column and whose
only cell does not parse as a date. -/
def badTable : Table := { cols := ["date"], rows := [[Cell.str "hello"]] }

/-- A one-cell table with no date column, fixed by cleaning. -/
def idemTable : Table := { cols := ["name"], rows := [[Cell.str "a"]] }

/-- The 5-row, 4-column example of the statistics claim: one fully-empty
row, one fully-empty column, one exact-duplicate pair. -/
def statsTable : Table :=
  { cols := ["colA", "colB", "colC", "colD"]
    rows :=
      [[Cell.str "a1", Cell.str "b1", Cell.missing, Cell.str "d1"],
       [Cell.str "a2", Cell.str "b2", Cell.missing, Cell.str "d2"],
       [Cell.missing, Cell.missing, Cell.missing, Cell.missing],
       [Cell.str "a1", Cell.str "b1", Cell.missing, Cell.str "d1"],
       [Cell.str "a3", Cell.str "b3", Cell.missing, Cell.str "d3"]] }

/-- The explicit date-column example table: columns Name, DOB, Note. -/
def dobTable : Table :=
  { cols := ["Name", "DOB", "Note"]
    rows :=
      [[Cell.str "a", Cell.str "01/02/2020", Cell.str "x"],
       [Cell.str "b", Cell.str " 2020-03-04 ", Cell.str "y"]] }

/-! ### Whitespace stripping -/

theorem noWSHead_dropWhile (l : List Char) :
    noWSHead (l.dropWhile Char.isWhitespace) = true := by
  induction l with
  | nil => rfl
  | cons a l ih =>
      by_cases h : a.isWhitespace
      · simpa [List.dropWhile_cons, h] using ih
      · simp [List.dropWhile_cons, h, noWSHead]

theorem dropWhile_of_noWSHead {l : List Char} (h : noWSHead l = true) :
    l.dropWhile Char.isWhitespace = l := by
  cases l with
  | nil => rfl
  | cons a l =>
      simp only [noWSHead, Bool.not_eq_true'] at h
      simp [List.dropWhile_cons, h]

theorem noWSHead_reverse_stripChars (l : List Char) :
    noWSHead (stripChars l).reverse = true := by
  unfold stripChars
  rw [List.reverse_reverse]
  exact noWSHead_dropWhile _

theorem stripChars_prefix_decomp (l : List Char) :
    l.dropWhile Char.isWhitespace =
      stripChars l ++
        ((l.dropWhile Char.isWhitespace).reverse.takeWhile Char.isWhitespace).reverse := by
  unfold stripChars
  conv_lhs => rw [← List.reverse_reverse (l.dropWhile Char.isWhitespace)]
  rw [← List.takeWhile_append_dropWhile Char.isWhitespace
        (l.dropWhile Char.isWhitespace).reverse]
  rw [List.reverse_append]
  rw [List.takeWhile_append_dropWhile]

theorem noWSHead_stripChars (l : List Char) : noWSHead (stripChars l) = true := by
  cases hs : stripChars l with
  | nil => rfl
  | cons a tl =>
      have hd := stripChars_prefix_decomp l
      rw [hs] at hd
      have h1 := noWSHead_dropWhile l
      rw [hd] at h1
      simpa [noWSHead] using h1

theorem stripChars_of_noWS {l : List Char} (h1 : noWSHead l = true)
    (h2 : noWSHead l.reverse = true) : stripChars l = l := by
  unfold stripChars
  rw [dropWhile_of_noWSHead h1, dropWhile_of_noWSHead h2, List.reverse_reverse]

theorem stripChars_idem (l : List Char) : stripChars (stripChars l) = stripChars l :=
  stripChars_of_noWS (noWSHead_stripChars l) (noWSHead_reverse_stripChars l)

theorem stripChars_of_all_noWS {l : List Char} (h : ∀ c ∈ l, c.isWhitespace = false) :
    stripChars l = l := by
  apply stripChars_of_noWS
  · cases l with
    | nil => rfl
    | cons a tl => simpa [noWSHead] using h a (by simp)
  · cases hr : l.reverse with
    | nil => rfl
    | cons a tl =>
        have ha : a ∈ l := by
          rw [← List.mem_reverse, hr]; simp
        simpa [noWSHead] using h a ha

theorem pyStrip_idem (s : String) : pyStrip (pyStrip s) = pyStrip s :=
  congrArg String.mk (stripChars_idem s.data)

theorem trimCell_idem (c : Cell) : trimCell (trimCell c) = trimCell c := by
  cases c <;> simp [trimCell, pyStrip_idem]

/-! ### Digit characters and the ISO rendering -/

theorem dg_ne_dash (k : Nat) : ¬ (dg k = '-') := by
  have h : ∀ j < 10, ¬ (Char.ofNat (48 + j) = '-') := by decide
  exact h (k % 10) (Nat.mod_lt _ (by decide))

theorem dg_isDigit (k : Nat) : (dg k).isDigit = true := by
  have h : ∀ j < 10, (Char.ofNat (48 + j)).isDigit = true := by decide
  exact h (k % 10) (Nat.mod_lt _ (by decide))

theorem dg_not_ws (k : Nat) : (dg k).isWhitespace = false := by
  have h : ∀ j < 10, (Char.ofNat (48 + j)).isWhitespace = false := by decide
  exact h (k % 10) (Nat.mod_lt _ (by decide))

theorem dg_toNat (k : Nat) : (dg k).toNat = 48 + k % 10 := by
  have h : ∀ j < 10, (Char.ofNat (48 + j)).toNat = 48 + j := by decide
  exact h (k % 10) (Nat.mod_lt _ (by decide))

theorem isIso_isoString (y m d : Nat) : isIsoDateString (isoString y m d) = true := by
  simp [isIsoDateString, isoString, isoChars, dg_isDigit]

theorem splitOnChar_isoChars (y m d : Nat) :
    splitOnChar '-' (isoChars y m d) =
      [[dg (y / 1000), dg (y / 100), dg (y / 10), dg y],
       [dg (m / 10), dg m], [dg (d / 10), dg d]] := by
  simp [isoChars, splitOnChar, dg_ne_dash]

theorem charsToNat_pair (a b : Nat) :
    charsToNat [dg a, dg b] = some (a % 10 * 10 + b % 10) := by
  have h1 : ([dg a, dg b] : List Char) ≠ [] := by simp
  have h2 : ([dg a, dg b] : List Char).all Char.isDigit = true := by
    simp [dg_isDigit]
  unfold charsToNat
  rw [if_pos ⟨h1, h2⟩]
  simp only [List.foldl_cons, List.foldl_nil, dg_toNat]
  congr 1
  omega

theorem charsToNat_quad (a b c e : Nat) :
    charsToNat [dg a, dg b, dg c, dg e] =
      some (((a % 10 * 10 + b % 10) * 10 + c % 10) * 10 + e % 10) := by
  have h1 : ([dg a, dg b, dg c, dg e] : List Char) ≠ [] := by simp
  have h2 : ([dg a, dg b, dg c, dg e] : List Char).all Char.isDigit = true := by
    simp [dg_isDigit]
  unfold charsToNat
  rw [if_pos ⟨h1, h2⟩]
  simp only [List.foldl_cons, List.foldl_nil, dg_toNat]
  congr 1
  omega

theorem daysInMonth_le (y m : Nat) : daysInMonth y m ≤ 31 := by
  unfold daysInMonth
  split
  · split <;> omega
  · split <;> omega

theorem parse_isoChars {y m d : Nat} (h : ValidDate y m d) :
    parseDateChars (isoChars y m d) = some (y, m, d) := by
  obtain ⟨h1, h2, h3, h4, h5, h6⟩ := h
  have hd31 : d ≤ 31 := le_trans h6 (daysInMonth_le y m)
  unfold parseDateChars
  rw [splitOnChar_isoChars]
  rw [if_pos (by simp)]
  simp only [parseDashParts]
  rw [charsToNat_quad, charsToNat_pair, charsToNat_pair]
  simp only [Option.some_bind]
  rw [if_pos (by simp)]
  have hy : ((y / 1000 % 10 * 10 + y / 100 % 10) * 10 + y / 10 % 10) * 10 + y % 10 = y := by
    omega
  have hm : m / 10 % 10 * 10 + m % 10 = m := by omega
  have hd : d / 10 % 10 * 10 + d % 10 = d := by omega
  rw [hy, hm, hd]
  unfold mkValidDate
  rw [if_pos ⟨h1, h2, h3, h4, h5, h6⟩]

/-! ### Validity of parsed dates and cell normalization -/

theorem mkValidDate_some_valid {a b c y m d : Nat}
    (h : mkValidDate a b c = some (y, m, d)) : ValidDate y m d := by
  unfold mkValidDate at h
  by_cases hv : ValidDate a b c
  · rw [if_pos hv] at h
    injection h with h'
    simp only [Prod.ext_iff] at h'
    obtain ⟨rfl, rfl, rfl⟩ := h'
    exact hv
  · rw [if_neg hv] at h
    exact absurd h (by simp)

theorem parseDashParts_valid {parts : List (List Char)} {y m d : Nat}
    (h : parseDashParts parts = some (y, m, d)) : ValidDate y m d := by
  rcases parts with _ | ⟨ys, _ | ⟨ms, _ | ⟨ds, _ | ⟨e4, rest⟩⟩⟩⟩
  · simp [parseDashParts] at h
  · simp [parseDashParts] at h
  · simp [parseDashParts] at h
  · simp only [parseDashParts] at h
    rw [Option.bind_eq_some] at h
    obtain ⟨yv, -, h⟩ := h
    rw [Option.bind_eq_some] at h
    obtain ⟨mv, -, h⟩ := h
    rw [Option.bind_eq_some] at h
    obtain ⟨dv, -, h⟩ := h
    split at h
    · exact mkValidDate_some_valid h
    · exact absurd h (by simp)
  · simp [parseDashParts] at h

theorem parseSlashParts_valid {parts : List (List Char)} {y m d : Nat}
    (h : parseSlashParts parts = some (y, m, d)) : ValidDate y m d := by
  rcases parts with _ | ⟨ms, _ | ⟨ds, _ | ⟨ys, _ | ⟨e4, rest⟩⟩⟩⟩
  · simp [parseSlashParts] at h
  · simp [parseSlashParts] at h
  · simp [parseSlashParts] at h
  · simp only [parseSlashParts] at h
    rw [Option.bind_eq_some] at h
    obtain ⟨a, -, h⟩ := h
    rw [Option.bind_eq_some] at h
    obtain ⟨b, -, h⟩ := h
    rw [Option.bind_eq_some] at h
    obtain ⟨yv, -, h⟩ := h
    split at h
    · rcases hq : mkValidDate yv a b with _ | r
      · rw [hq] at h
        exact mkValidDate_some_valid (h : mkValidDate yv b a = some (y, m, d))
      · rw [hq] at h
        have h2 : some r = some (y, m, d) := h
        injection h2 with h'
        rw [h'] at hq
        exact mkValidDate_some_valid hq
    · exact absurd h (by simp)
  · simp [parseSlashParts] at h

theorem parseDateChars_valid {l : List Char} {y m d : Nat}
    (h : parseDateChars l = some (y, m, d)) : ValidDate y m d := by
  unfold parseDateChars at h
  split at h
  · exact parseDashParts_valid h
  · exact parseSlashParts_valid h

theorem cellParseDate_valid {c : Cell} {y m d : Nat}
    (h : cellParseDate c = some (y, m, d)) : ValidDate y m d := by
  cases c with
  | str s => exact parseDateChars_valid h
  | num n => exact absurd h (by simp [cellParseDate])
  | boolean b => exact absurd h (by simp [cellParseDate])
  | missing => exact absurd h (by simp [cellParseDate])

theorem normalizeCell_of_parse {c : Cell} {y m d : Nat}
    (h : cellParseDate c = some (y, m, d)) :
    normalizeCell c = Cell.str (isoString y m d) := by
  unfold normalizeCell
  rw [h]

theorem normalizeCell_of_none {c : Cell} (h : cellParseDate c = none) :
    normalizeCell c = Cell.missing := by
  unfold normalizeCell
  rw [h]

theorem normalizeCell_missing : normalizeCell Cell.missing = Cell.missing := rfl

theorem normalizeCell_shape (c : Cell) :
    normalizeCell c = Cell.missing ∨
      ∃ y m d, ValidDate y m d ∧ normalizeCell c = Cell.str (isoString y m d) := by
  rcases hp : cellParseDate c with _ | ⟨y, m, d⟩
  · exact Or.inl (normalizeCell_of_none hp)
  · exact Or.inr ⟨y, m, d, cellParseDate_valid hp, normalizeCell_of_parse hp⟩

theorem cellParseDate_iso {y m d : Nat} (h : ValidDate y m d) :
    cellParseDate (Cell.str (isoString y m d)) = some (y, m, d) := by
  show parseDateChars (isoString y m d).data = _
  exact parse_isoChars h

theorem normalizeCell_idem (c : Cell) :
    normalizeCell (normalizeCell c) = normalizeCell c := by
  rcases normalizeCell_shape c with h | ⟨y, m, d, hv, h⟩
  · rw [h]
    exact normalizeCell_of_none rfl
  · rw [h]
    exact normalizeCell_of_parse (cellParseDate_iso hv)

theorem isoChars_noWS {ch : Char} {y m d : Nat} (hch : ch ∈ isoChars y m d) :
    ch.isWhitespace = false := by
  simp only [isoChars, List.mem_cons, List.not_mem_nil, or_false] at hch
  rcases hch with h | h | h | h | h | h | h | h | h | h <;> subst h <;>
    first
      | exact dg_not_ws _
      | decide

theorem pyStrip_isoString (y m d : Nat) :
    pyStrip (isoString y m d) = isoString y m d :=
  congrArg String.mk (stripChars_of_all_noWS (fun _ hc => isoChars_noWS hc))

theorem trimCell_normalizeCell (c : Cell) :
    trimCell (normalizeCell c) = normalizeCell c := by
  rcases normalizeCell_shape c with h | ⟨y, m, d, -, h⟩
  · rw [h]; rfl
  · rw [h]
    show Cell.str (pyStrip (isoString y m d)) = _
    rw [pyStrip_isoString]

/-! ### Mask utilities -/

theorem mem_applyMask {α : Type} :
    ∀ (ms : List Bool) (xs : List α) (x : α), x ∈ applyMask ms xs → x ∈ xs := by
  intro ms
  induction ms with
  | nil => intro xs x h; simp [applyMask] at h
  | cons b ms ih =>
      intro xs x h
      cases xs with
      | nil => simp [applyMask] at h
      | cons a xs =>
          cases b with
          | true =>
              simp only [applyMask, if_pos] at h
              rcases List.mem_cons.mp h with h | h
              · exact List.mem_cons.mpr (Or.inl h)
              · exact List.mem_cons.mpr (Or.inr (ih xs x h))
          | false =>
              simp only [applyMask, if_neg] at h
              exact List.mem_cons.mpr (Or.inr (ih xs x h))

theorem applyMask_length {α : Type} :
    ∀ (ms : List Bool) (xs : List α), xs.length = ms.length →
      (applyMask ms xs).length = (ms.filter (fun b => b)).length := by
  intro ms
  induction ms with
  | nil =>
      intro xs h
      rw [List.length_eq_zero.mp h]
      rfl
  | cons b ms ih =>
      intro xs h
      cases xs with
      | nil => simp at h
      | cons a xs =>
          simp only [List.length_cons, Nat.succ.injEq] at h
          cases b with
          | true => simp [applyMask, List.filter_cons, ih xs h]
          | false => simp [applyMask, List.filter_cons, ih xs h]

theorem applyMask_getD {α : Type} (d : α) :
    ∀ (ms : List Bool) (xs : List α), xs.length = ms.length →
      ∀ j, j < (applyMask ms xs).length →
        maskIdx ms j < ms.length ∧ (ms.getD (maskIdx ms j) false = true ∧
        (applyMask ms xs).getD j d = xs.getD (maskIdx ms j) d) := by
  intro ms
  induction ms with
  | nil =>
      intro xs h j hj
      rw [List.length_eq_zero.mp h] at hj
      simp [applyMask] at hj
  | cons b ms ih =>
      intro xs h j hj
      cases xs with
      | nil => simp at h
      | cons a xs =>
          simp only [List.length_cons, Nat.succ.injEq] at h
          cases b with
          | true =>
              simp only [applyMask, if_pos] at hj
              cases j with
              | zero =>
                  refine ⟨by simp [maskIdx], by simp [maskIdx], ?_⟩
                  simp [applyMask, maskIdx]
              | succ j =>
                  simp only [List.length_cons, Nat.succ_lt_succ_iff] at hj
                  obtain ⟨h1, h2, h3⟩ := ih xs h j hj
                  refine ⟨?_, ?_, ?_⟩
                  · simp only [maskIdx, if_pos]
                    exact Nat.succ_lt_succ h1
                  · simpa [maskIdx] using h2
                  · simpa [applyMask, maskIdx] using h3
          | false =>
              simp only [applyMask, if_neg] at hj
              obtain ⟨h1, h2, h3⟩ := ih xs h j hj
              refine ⟨?_, ?_, ?_⟩
              · simp only [maskIdx]
                exact Nat.succ_lt_succ h1
              · simpa [maskIdx] using h2
              · simpa [applyMask, maskIdx] using h3

theorem getD_mem_applyMask {α : Type} (d : α) :
    ∀ (ms : List Bool) (xs : List α), xs.length = ms.length →
      ∀ j, j < ms.length → ms.getD j false = true →
        xs.getD j d ∈ applyMask ms xs := by
  intro ms
  induction ms with
  | nil => intro xs h j hj; simp at hj
  | cons b ms ih =>
      intro xs h j hj hb
      cases xs with
      | nil => simp at h
      | cons a xs =>
          simp only [List.length_cons, Nat.succ.injEq] at h
          cases j with
          | zero =>
              simp only [List.getD_cons_zero] at hb ⊢
              rw [hb]
              simp [applyMask]
          | succ j =>
              simp only [List.getD_cons_succ] at hb ⊢
              simp only [List.length_cons, Nat.succ_lt_succ_iff] at hj
              have hm := ih xs h j hj hb
              cases b with
              | true =>
                  simp only [applyMask, if_pos]
                  exact List.mem_cons.mpr (Or.inr hm)
              | false =>
                  simp only [applyMask, if_neg]
                  exact hm

theorem applyMask_all_true {α : Type} :
    ∀ (ms : List Bool) (xs : List α), xs.length = ms.length →
      (∀ b ∈ ms, b = true) → applyMask ms xs = xs := by
  intro ms
  induction ms with
  | nil =>
      intro xs h _
      rw [List.length_eq_zero.mp h]
      rfl
  | cons b ms ih =>
      intro xs h hb
      cases xs with
      | nil => simp at h
      | cons a xs =>
          simp only [List.length_cons, Nat.succ.injEq] at h
          have hbt : b = true := hb b (by simp)
          rw [hbt]
          simp only [applyMask, if_pos]
          rw [ih xs h (fun x hx => hb x (by simp [hx]))]

theorem mem_zipWith_elim {α β γ : Type} {f : α → β → γ} {x : γ} :
    ∀ {as : List α} {bs : List β}, x ∈ List.zipWith f as bs →
      ∃ a ∈ as, ∃ b ∈ bs, x = f a b := by
  intro as
  induction as with
  | nil => intro bs h; simp at h
  | cons a as ih =>
      intro bs h
      cases bs with
      | nil => simp at h
      | cons b bs =>
          simp only [List.zipWith_cons_cons] at h
          rcases List.mem_cons.mp h with h | h
          · exact ⟨a, by simp, b, by simp, h⟩
          · obtain ⟨a', ha', b', hb', hx⟩ := ih h
            exact ⟨a', by simp [ha'], b', by simp [hb'], hx⟩

/-! ### The dropna stages -/

theorem colMask_length (t : Table) : (colMask t).length = t.cols.length := by
  simp [colMask]

theorem colMask_getD (t : Table) {j : Nat} (hj : j < t.cols.length) :
    (colMask t).getD j false =
      t.rows.any (fun r => !(r.getD j Cell.missing == Cell.missing)) := by
  have hj' : j < (colMask t).length := by rw [colMask_length]; exact hj
  rw [List.getD_eq_getElem _ _ hj']
  unfold colMask
  rw [List.getElem_map]
  simp only [List.getElem_range]

theorem trim_WF {t : Table} (h : t.WF) : (trim_whitespace t).WF := by
  intro r hr
  simp only [trim_whitespace, List.mem_map] at hr
  obtain ⟨r0, hr0, rfl⟩ := hr
  simp only [trim_whitespace, List.length_map]
  exact h r0 hr0

theorem trim_cols_length (t : Table) :
    (trim_whitespace t).cols.length = t.cols.length := by
  simp [trim_whitespace]

theorem dropnaRows_WF {t : Table} (h : t.WF) : (dropnaRows t).WF := by
  intro r hr
  simp only [dropnaRows, List.mem_filter] at hr
  exact h r hr.1

theorem mem_dropnaRows {t : Table} {r : List Cell} :
    r ∈ (dropnaRows t).rows ↔ r ∈ t.rows ∧ ∃ c ∈ r, c ≠ Cell.missing := by
  simp only [dropnaRows, List.mem_filter, Bool.not_eq_true', List.all_eq_false]
  constructor
  · rintro ⟨h1, c, hc, hne⟩
    exact ⟨h1, c, hc, by simpa using hne⟩
  · rintro ⟨h1, c, hc, hne⟩
    exact ⟨h1, c, hc, by simpa using hne⟩

theorem dropnaRows_noMissingRow (t : Table) : (dropnaRows t).noMissingRow := by
  intro r hr
  exact (mem_dropnaRows.mp hr).2

theorem dropnaCols_WF {t : Table} (h : t.WF) : (dropnaCols t).WF := by
  intro r' hr'
  simp only [dropnaCols, List.mem_map] at hr'
  obtain ⟨r, hr, rfl⟩ := hr'
  show (applyMask (colMask t) r).length = (applyMask (colMask t) t.cols).length
  rw [applyMask_length _ _ (by rw [h r hr, colMask_length]),
      applyMask_length _ _ (colMask_length t).symm]

theorem dropnaCols_noMissingCol {t : Table} (h : t.WF) :
    (dropnaCols t).noMissingCol := by
  intro j hj
  have hj0 : j < (applyMask (colMask t) t.cols).length := hj
  obtain ⟨hmi, hmb, -⟩ :=
    applyMask_getD "" (colMask t) t.cols (colMask_length t).symm j hj0
  have hmi' : maskIdx (colMask t) j < t.cols.length := by
    rw [← colMask_length]; exact hmi
  rw [colMask_getD t hmi', List.any_eq_true] at hmb
  obtain ⟨r, hr, hrb⟩ := hmb
  have hlenr : r.length = (colMask t).length := by rw [h r hr, colMask_length]
  refine ⟨applyMask (colMask t) r, ?_, ?_⟩
  · simp only [dropnaCols, List.mem_map]
    exact ⟨r, hr, rfl⟩
  · have hjr : j < (applyMask (colMask t) r).length := by
      rw [applyMask_length _ _ hlenr]
      rw [applyMask_length _ _ (colMask_length t).symm] at hj0
      exact hj0
    obtain ⟨-, -, hcell⟩ := applyMask_getD Cell.missing (colMask t) r hlenr j hjr
    rw [hcell]
    simpa using hrb

theorem dropnaCols_noMissingRow {t : Table} (h : t.WF) (hrow : t.noMissingRow) :
    (dropnaCols t).noMissingRow := by
  intro r' hr'
  simp only [dropnaCols, List.mem_map] at hr'
  obtain ⟨r, hr, rfl⟩ := hr'
  obtain ⟨c, hc, hcne⟩ := hrow r hr
  obtain ⟨j, hj, rfl⟩ := List.mem_iff_getElem.mp hc
  have hjc : j < t.cols.length := by rw [← h r hr]; exact hj
  have hmb : (colMask t).getD j false = true := by
    rw [colMask_getD t hjc, List.any_eq_true]
    refine ⟨r, hr, ?_⟩
    rw [List.getD_eq_getElem _ _ hj]
    simpa using hcne
  have hmem := getD_mem_applyMask Cell.missing (colMask t) r
    (by rw [h r hr, colMask_length]) j (by rw [colMask_length]; exact hjc) hmb
  refine ⟨r.getD j Cell.missing, hmem, ?_⟩
  rw [List.getD_eq_getElem _ _ hj]
  exact hcne

/-! ### Date-column normalization -/

theorem applyDateCol_cols (t : Table) (col : String) :
    (applyDateCol t col).cols = t.cols := by
  unfold applyDateCol
  split <;> rfl

theorem applyDateCol_rows_length (t : Table) (col : String) :
    (applyDateCol t col).rows.length = t.rows.length := by
  unfold applyDateCol
  split <;> simp

theorem applyDateCol_WF {t : Table} (h : t.WF) (col : String) :
    (applyDateCol t col).WF := by
  unfold applyDateCol
  split
  · intro r' hr'
    simp only [List.mem_map] at hr'
    obtain ⟨r, hr, rfl⟩ := hr'
    simp only [List.length_zipWith]
    rw [h r hr, Nat.min_self]
  · exact h

theorem applyDateCol_row_length {t : Table} (h : t.WF) (col : String) {i : Nat}
    (hi : i < t.rows.length) :
    ((applyDateCol t col).rows.getD i []).length = (t.rows.getD i []).length := by
  have h1 := applyDateCol_WF h col
  have hi' : i < (applyDateCol t col).rows.length := by
    rw [applyDateCol_rows_length]; exact hi
  rw [List.getD_eq_getElem _ _ hi', List.getD_eq_getElem _ _ hi]
  rw [h1 _ (List.getElem_mem hi'), h _ (List.getElem_mem hi), applyDateCol_cols]

theorem applyDateCol_cell {t : Table} (h : t.WF) (col : String) {i j : Nat}
    (hi : i < t.rows.length) (hj : j < t.cols.length) :
    ((applyDateCol t col).rows.getD i []).getD j Cell.missing =
      (if t.cols.getD j "" = col
       then normalizeCell ((t.rows.getD i []).getD j Cell.missing)
       else (t.rows.getD i []).getD j Cell.missing) := by
  unfold applyDateCol
  split
  · have hi' : i < (t.rows.map (fun r =>
        List.zipWith (fun name c => if name = col then normalizeCell c else c)
          t.cols r)).length := by
      simpa using hi
    rw [List.getD_eq_getElem _ _ hi', List.getElem_map]
    have hrl : (t.rows[i]).length = t.cols.length := h _ (List.getElem_mem hi)
    have hj2 : j < (List.zipWith
        (fun name c => if name = col then normalizeCell c else c)
        t.cols t.rows[i]).length := by
      rw [List.length_zipWith, hrl, Nat.min_self]
      exact hj
    have hjr : j < (t.rows[i]).length := by rw [hrl]; exact hj
    rw [List.getD_eq_getElem _ _ hj2, List.getElem_zipWith]
    rw [List.getD_eq_getElem t.cols _ hj, List.getD_eq_getElem _ _ hi,
        List.getD_eq_getElem _ _ hjr]
  · rw [if_neg]
    intro heq
    rw [List.getD_eq_getElem t.cols _ hj] at heq
    rename_i hmem
    exact hmem (heq ▸ List.getElem_mem hj)

theorem normFoldl_cols (eff : List String) (t : Table) :
    (eff.foldl applyDateCol t).cols = t.cols := by
  induction eff generalizing t with
  | nil => rfl
  | cons c eff ih => rw [List.foldl_cons, ih, applyDateCol_cols]

theorem normFoldl_rows_length (eff : List String) (t : Table) :
    (eff.foldl applyDateCol t).rows.length = t.rows.length := by
  induction eff generalizing t with
  | nil => rfl
  | cons c eff ih => rw [List.foldl_cons, ih, applyDateCol_rows_length]

theorem normFoldl_WF (eff : List String) {t : Table} (h : t.WF) :
    (eff.foldl applyDateCol t).WF := by
  induction eff generalizing t with
  | nil => exact h
  | cons c eff ih => exact ih (applyDateCol_WF h c)

theorem normFoldl_row_length (eff : List String) {t : Table} (h : t.WF) {i : Nat}
    (hi : i < t.rows.length) :
    ((eff.foldl applyDateCol t).rows.getD i []).length = (t.rows.getD i []).length := by
  induction eff generalizing t with
  | nil => rfl
  | cons c eff ih =>
      rw [List.foldl_cons]
      have hi' : i < (applyDateCol t c).rows.length := by
        rw [applyDateCol_rows_length]; exact hi
      rw [ih (applyDateCol_WF h c) hi', applyDateCol_row_length h c hi]

theorem normFoldl_cell (eff : List String) {t : Table} (h : t.WF) {i j : Nat}
    (hi : i < t.rows.length) (hj : j < t.cols.length) :
    ((eff.foldl applyDateCol t).rows.getD i []).getD j Cell.missing =
      (if t.cols.getD j "" ∈ eff
       then normalizeCell ((t.rows.getD i []).getD j Cell.missing)
       else (t.rows.getD i []).getD j Cell.missing) := by
  induction eff generalizing t with
  | nil => simp
  | cons c eff ih =>
      rw [List.foldl_cons]
      have h' := applyDateCol_WF h c
      have hi' : i < (applyDateCol t c).rows.length := by
        rw [applyDateCol_rows_length]; exact hi
      have hj' : j < (applyDateCol t c).cols.length := by
        rw [applyDateCol_cols]; exact hj
      rw [ih h' hi' hj']
      rw [show (applyDateCol t c).cols = t.cols from applyDateCol_cols t c]
      rw [applyDateCol_cell h c hi hj]
      by_cases h1 : t.cols.getD j "" = c <;> by_cases h2 : t.cols.getD j "" ∈ eff <;>
        simp only [List.getD_eq_getElem?_getD] at h1 h2 ⊢ <;>
        simp [h1, h2, List.mem_cons, normalizeCell_idem]

/-! ### Deduplication -/

theorem dedupSeen_sublist :
    ∀ (l seen : List (List Cell)), List.Sublist (dedupSeen seen l) l := by
  intro l
  induction l with
  | nil => intro seen; exact List.Sublist.refl _
  | cons r rs ih =>
      intro seen
      by_cases h : r ∈ seen
      · rw [dedupSeen, if_pos h]
        exact List.Sublist.cons r (ih seen)
      · rw [dedupSeen, if_neg h]
        exact List.Sublist.cons₂ r (ih (r :: seen))

theorem mem_dedupSeen :
    ∀ (l seen : List (List Cell)) (x : List Cell),
      x ∈ dedupSeen seen l ↔ x ∈ l ∧ x ∉ seen := by
  intro l
  induction l with
  | nil => intro seen x; simp [dedupSeen]
  | cons r rs ih =>
      intro seen x
      by_cases h : r ∈ seen
      · rw [dedupSeen, if_pos h, ih]
        constructor
        · rintro ⟨h1, h2⟩
          exact ⟨List.mem_cons.mpr (Or.inr h1), h2⟩
        · rintro ⟨h1, h2⟩
          rcases List.mem_cons.mp h1 with rfl | h1
          · exact absurd h h2
          · exact ⟨h1, h2⟩
      · rw [dedupSeen, if_neg h]
        constructor
        · intro hx
          rcases List.mem_cons.mp hx with rfl | hx
          · exact ⟨List.mem_cons.mpr (Or.inl rfl), h⟩
          · obtain ⟨h1, h2⟩ := (ih (r :: seen) x).mp hx
            refine ⟨List.mem_cons.mpr (Or.inr h1), ?_⟩
            intro hs
            exact h2 (List.mem_cons.mpr (Or.inr hs))
        · rintro ⟨h1, h2⟩
          rcases List.mem_cons.mp h1 with rfl | h1
          · exact List.mem_cons.mpr (Or.inl rfl)
          · by_cases hx : x = r
            · exact List.mem_cons.mpr (Or.inl hx)
            · refine List.mem_cons.mpr (Or.inr ((ih (r :: seen) x).mpr ⟨h1, ?_⟩))
              intro hs
              rcases List.mem_cons.mp hs with h' | h'
              · exact hx h'
              · exact h2 h'

theorem dedupSeen_nodup :
    ∀ (l seen : List (List Cell)), (dedupSeen seen l).Nodup := by
  intro l
  induction l with
  | nil => intro seen; simp [dedupSeen]
  | cons r rs ih =>
      intro seen
      by_cases h : r ∈ seen
      · rw [dedupSeen, if_pos h]
        exact ih seen
      · rw [dedupSeen, if_neg h]
        refine List.Nodup.cons ?_ (ih (r :: seen))
        intro hmem
        obtain ⟨-, h2⟩ := (mem_dedupSeen rs (r :: seen) r).mp hmem
        exact h2 (List.mem_cons.mpr (Or.inl rfl))

theorem dedupSeen_eq_specDedupGo :
    ∀ (l seen pre : List (List Cell)), (∀ x, x ∈ seen ↔ x ∈ pre) →
      dedupSeen seen l = specDedupGo pre l := by
  intro l
  induction l with
  | nil => intro seen pre _; rfl
  | cons r rs ih =>
      intro seen pre hiff
      have hnext : ∀ x, x ∈ seen ∨ x = r ↔ x ∈ pre ++ [r] := by
        intro x
        rw [List.mem_append, List.mem_singleton, hiff]
      by_cases h : r ∈ seen
      · rw [dedupSeen, if_pos h, specDedupGo, if_pos ((hiff r).mp h)]
        apply ih
        intro x
        constructor
        · intro hx
          exact (hnext x).mp (Or.inl hx)
        · intro hx
          rcases (hnext x).mpr hx with hx | rfl
          · exact hx
          · exact h
      · rw [dedupSeen, if_neg h, specDedupGo,
            if_neg (fun hp => h ((hiff r).mpr hp))]
        congr 1
        apply ih
        intro x
        rw [List.mem_cons]
        constructor
        · intro hx
          rcases hx with rfl | hx
          · exact (hnext x).mp (Or.inr rfl)
          · exact (hnext x).mp (Or.inl hx)
        · intro hx
          rcases (hnext x).mpr hx with hx | rfl
          · exact Or.inr hx
          · exact Or.inl rfl

theorem dropDuplicates_eq_specDedup (l : List (List Cell)) :
    dropDuplicates l = specDedup l :=
  dedupSeen_eq_specDedupGo l [] [] (by simp)

theorem dropDuplicates_nodup (l : List (List Cell)) : (dropDuplicates l).Nodup :=
  dedupSeen_nodup l []

theorem dropDuplicates_sublist (l : List (List Cell)) :
    List.Sublist (dropDuplicates l) l :=
  dedupSeen_sublist l []

theorem mem_dropDuplicates {l : List (List Cell)} {x : List Cell} :
    x ∈ dropDuplicates l ↔ x ∈ l := by
  rw [dropDuplicates, mem_dedupSeen]
  simp

theorem dedupSeen_of_nodup :
    ∀ (l seen : List (List Cell)), l.Nodup → (∀ x ∈ l, x ∉ seen) →
      dedupSeen seen l = l := by
  intro l
  induction l with
  | nil => intro seen _ _; rfl
  | cons r rs ih =>
      intro seen hnd hout
      rw [dedupSeen, if_neg (hout r (List.mem_cons.mpr (Or.inl rfl)))]
      congr 1
      apply ih
      · exact (List.nodup_cons.mp hnd).2
      · intro x hx
        intro hmem
        rcases List.mem_cons.mp hmem with rfl | hmem
        · exact (List.nodup_cons.mp hnd).1 hx
        · exact hout x (List.mem_cons.mpr (Or.inr hx)) hmem

theorem dropDuplicates_of_nodup {l : List (List Cell)} (h : l.Nodup) :
    dropDuplicates l = l :=
  dedupSeen_of_nodup l [] h (by simp)

/-! ### Substring containment -/

theorem startsWithL_iff :
    ∀ (n h : List Char), startsWithL n h = true ↔ ∃ t, h = n ++ t := by
  intro n
  induction n with
  | nil =>
      intro h
      simp [startsWithL]
  | cons a as ih =>
      intro h
      cases h with
      | nil =>
          simp only [startsWithL]
          constructor
          · intro hf; exact absurd hf (by simp)
          · rintro ⟨t, ht⟩; exact absurd ht (by simp)
      | cons b bs =>
          simp only [startsWithL, Bool.and_eq_true, beq_iff_eq]
          rw [ih bs]
          constructor
          · rintro ⟨rfl, t, rfl⟩
            exact ⟨t, rfl⟩
          · rintro ⟨t, ht⟩
            simp only [List.cons_append, List.cons.injEq] at ht
            obtain ⟨rfl, rfl⟩ := ht
            exact ⟨rfl, t, rfl⟩

theorem hasSubL_iff :
    ∀ (h n : List Char), hasSubL n h = true ↔ ∃ pre post, h = pre ++ n ++ post := by
  intro h
  induction h with
  | nil =>
      intro n
      simp only [hasSubL, List.isEmpty_iff]
      constructor
      · rintro rfl
        exact ⟨[], [], rfl⟩
      · rintro ⟨pre, post, hp⟩
        rcases List.append_eq_nil.mp (List.append_eq_nil.mp hp.symm).1 with ⟨-, h2⟩
        exact h2
  | cons c cs ih =>
      intro n
      simp only [hasSubL, Bool.or_eq_true]
      rw [startsWithL_iff, ih]
      constructor
      · rintro (⟨t, ht⟩ | ⟨pre, post, hp⟩)
        · exact ⟨[], t, by simp [ht]⟩
        · exact ⟨c :: pre, post, by simp [hp]⟩
      · rintro ⟨pre, post, hp⟩
        cases pre with
        | nil =>
            left
            exact ⟨post, by simpa using hp⟩
        | cons p ps =>
            right
            simp only [List.cons_append, List.cons.injEq] at hp
            exact ⟨ps, post, hp.2⟩

/-! ### Invariants of the cleaned table -/

theorem table_eq_of_parts {a b : Table} (h1 : a.cols = b.cols)
    (h2 : a.rows = b.rows) : a = b := by
  cases a
  cases b
  cases h1
  cases h2
  rfl

theorem trimmed_trim (t : Table) : (trim_whitespace t).trimmed := by
  constructor
  · intro s hs
    simp only [trim_whitespace, List.mem_map] at hs
    obtain ⟨s0, -, rfl⟩ := hs
    exact pyStrip_idem s0
  · intro r hr c hc
    simp only [trim_whitespace, List.mem_map] at hr
    obtain ⟨r0, -, rfl⟩ := hr
    simp only [List.mem_map] at hc
    obtain ⟨c0, -, rfl⟩ := hc
    exact trimCell_idem c0

theorem trimmed_dropnaRows {t : Table} (h : t.trimmed) : (dropnaRows t).trimmed := by
  refine ⟨h.1, ?_⟩
  intro r hr
  exact h.2 r (mem_dropnaRows.mp hr).1

theorem trimmed_dropnaCols {t : Table} (h : t.trimmed) : (dropnaCols t).trimmed := by
  constructor
  · intro s hs
    exact h.1 s (mem_applyMask _ _ _ hs)
  · intro r' hr' c hc
    simp only [dropnaCols, List.mem_map] at hr'
    obtain ⟨r, hr, rfl⟩ := hr'
    exact h.2 r hr c (mem_applyMask _ _ _ hc)

theorem trimmed_applyDateCol {t : Table} (h : t.trimmed) (col : String) :
    (applyDateCol t col).trimmed := by
  unfold applyDateCol
  split
  · constructor
    · exact h.1
    · intro r' hr' c hc
      simp only [List.mem_map] at hr'
      obtain ⟨r, hr, rfl⟩ := hr'
      obtain ⟨name, -, c0, hc0, rfl⟩ := mem_zipWith_elim hc
      by_cases hn : name = col
      · rw [if_pos hn]
        exact trimCell_normalizeCell c0
      · rw [if_neg hn]
        exact h.2 r hr c0 hc0
  · exact h

theorem trimmed_normFoldl (eff : List String) {t : Table} (h : t.trimmed) :
    (eff.foldl applyDateCol t).trimmed := by
  induction eff generalizing t with
  | nil => exact h
  | cons c eff ih => exact ih (trimmed_applyDateCol h c)

theorem clean_trimmed (t : Table) (dc : Option (List String)) :
    ((clean_claims t dc).1).trimmed := by
  have h4 : (normalize_dates (dropnaCols (dropnaRows (trim_whitespace t))) dc).trimmed :=
    trimmed_normFoldl _ (trimmed_dropnaCols (trimmed_dropnaRows (trimmed_trim t)))
  constructor
  · exact h4.1
  · intro r hr
    exact h4.2 r (mem_dropDuplicates.mp hr)

theorem trim_of_trimmed {t : Table} (h : t.trimmed) : trim_whitespace t = t := by
  apply table_eq_of_parts
  · show t.cols.map pyStrip = t.cols
    conv_rhs => rw [← List.map_id t.cols]
    exact List.map_congr_left (fun s hs => h.1 s hs)
  · show t.rows.map (fun r => r.map trimCell) = t.rows
    conv_rhs => rw [← List.map_id t.rows]
    refine List.map_congr_left ?_
    intro r hr
    show r.map trimCell = r
    conv_rhs => rw [← List.map_id r]
    exact List.map_congr_left (fun c hc => h.2 r hr c hc)

theorem dropnaRows_fix {t : Table} (h : t.noMissingRow) : dropnaRows t = t := by
  refine table_eq_of_parts rfl ?_
  show t.rows.filter _ = t.rows
  apply List.filter_eq_self.mpr
  intro r hr
  obtain ⟨c, hc, hne⟩ := h r hr
  rw [Bool.not_eq_true', List.all_eq_false]
  exact ⟨c, hc, by simpa using hne⟩

theorem dropnaCols_fix {t : Table} (hWF : t.WF) (h : t.noMissingCol) :
    dropnaCols t = t := by
  have hmask : ∀ b ∈ colMask t, b = true := by
    intro b hb
    simp only [colMask, List.mem_map, List.mem_range] at hb
    obtain ⟨j, hj, rfl⟩ := hb
    rw [List.any_eq_true]
    obtain ⟨r, hr, hne⟩ := h j hj
    exact ⟨r, hr, by simpa using hne⟩
  apply table_eq_of_parts
  · exact applyMask_all_true _ _ (colMask_length t).symm hmask
  · show t.rows.map (fun r => applyMask (colMask t) r) = t.rows
    conv_rhs => rw [← List.map_id t.rows]
    refine List.map_congr_left ?_
    intro r hr
    exact applyMask_all_true _ _ (by rw [hWF r hr, colMask_length]) hmask

theorem clean_WF {t : Table} (h : t.WF) (dc : Option (List String)) :
    ((clean_claims t dc).1).WF := by
  have h4 : (normalize_dates (dropnaCols (dropnaRows (trim_whitespace t))) dc).WF :=
    normFoldl_WF _ (dropnaCols_WF (dropnaRows_WF (trim_WF h)))
  intro r hr
  exact h4 r (mem_dropDuplicates.mp hr)

theorem clean_rows_nodup (t : Table) (dc : Option (List String)) :
    ((clean_claims t dc).1).rows.Nodup :=
  dropDuplicates_nodup _

theorem clean_dateCell {t : Table} (hWF : t.WF) (dc : Option (List String))
    {i j : Nat} (hi : i < (clean_claims t dc).1.rows.length)
    (hj : j < (clean_claims t dc).1.cols.length)
    (hm : (clean_claims t dc).1.cols.getD j "" ∈
      effectiveDateCols (clean_claims t dc).1.cols dc) :
    ∃ c0, ((clean_claims t dc).1.rows.getD i []).getD j Cell.missing =
      normalizeCell c0 := by
  have h3WF : (dropnaCols (dropnaRows (trim_whitespace t))).WF :=
    dropnaCols_WF (dropnaRows_WF (trim_WF hWF))
  have hr : (clean_claims t dc).1.rows.getD i [] ∈
      (normalize_dates (dropnaCols (dropnaRows (trim_whitespace t))) dc).rows := by
    rw [List.getD_eq_getElem _ _ hi]
    exact mem_dropDuplicates.mp (List.getElem_mem hi)
  obtain ⟨i4, hi4, hieq⟩ := List.mem_iff_getElem.mp hr
  have hi3 : i4 < (dropnaCols (dropnaRows (trim_whitespace t))).rows.length := by
    rw [← normFoldl_rows_length
      (effectiveDateCols (dropnaCols (dropnaRows (trim_whitespace t))).cols dc)
      (dropnaCols (dropnaRows (trim_whitespace t)))]
    exact hi4
  have hcolseq : (clean_claims t dc).1.cols =
      (dropnaCols (dropnaRows (trim_whitespace t))).cols :=
    normFoldl_cols _ _
  have hj3 : j < (dropnaCols (dropnaRows (trim_whitespace t))).cols.length := by
    rw [← hcolseq]; exact hj
  rw [hcolseq] at hm
  have hcell := normFoldl_cell
    (effectiveDateCols (dropnaCols (dropnaRows (trim_whitespace t))).cols dc)
    h3WF hi3 hj3
  refine ⟨((dropnaCols (dropnaRows (trim_whitespace t))).rows.getD i4 []).getD
    j Cell.missing, ?_⟩
  have hrow : (clean_claims t dc).1.rows.getD i [] =
      (normalize_dates (dropnaCols (dropnaRows (trim_whitespace t))) dc).rows.getD i4 [] := by
    rw [List.getD_eq_getElem _ _ hi4, hieq, List.getD_eq_getElem _ _ hi]
  rw [hrow]
  unfold normalize_dates
  rw [hcell, if_pos hm]

theorem normalize_fix {u : Table} (hWF : u.WF) (dc : Option (List String))
    (hfix : ∀ i j, i < u.rows.length → j < u.cols.length →
      u.cols.getD j "" ∈ effectiveDateCols u.cols dc →
      normalizeCell ((u.rows.getD i []).getD j Cell.missing) =
        (u.rows.getD i []).getD j Cell.missing) :
    normalize_dates u dc = u := by
  apply table_eq_of_parts (normFoldl_cols _ _)
  apply List.ext_getElem (normFoldl_rows_length _ _)
  intro i h1 h2
  have hlen : ((effectiveDateCols u.cols dc).foldl applyDateCol u).rows.getD i [] =
      (normalize_dates u dc).rows.getD i [] := rfl
  apply List.ext_getElem
  · have := normFoldl_row_length (effectiveDateCols u.cols dc) hWF h2
    rw [List.getD_eq_getElem _ _ h1, List.getD_eq_getElem _ _ h2] at this
    exact this
  · intro j hj1 hj2
    have hjc : j < u.cols.length := by
      rw [← hWF _ (List.getElem_mem h2)]; exact hj2
    have hcell := normFoldl_cell (effectiveDateCols u.cols dc) hWF h2 hjc
    rw [List.getD_eq_getElem _ _ h1, List.getD_eq_getElem _ _ hj1,
        List.getD_eq_getElem _ _ h2, List.getD_eq_getElem _ _ hj2] at hcell
    rw [hcell]
    by_cases hmem : u.cols.getD j "" ∈ effectiveDateCols u.cols dc
    · rw [if_pos hmem]
      have := hfix i j h2 hjc hmem
      rw [List.getD_eq_getElem _ _ h2, List.getD_eq_getElem _ _ hj2] at this
      exact this
    · rw [if_neg hmem]

/-! ### The heap model -/

theorem alloc_fst (h : Heap) (t : Table) :
    (h.alloc t).1 = Heap.mk (h.objs ++ [t]) := rfl

theorem alloc_snd (h : Heap) (t : Table) : (h.alloc t).2 = h.objs.length := rfl

theorem objs_mk (l : List Table) : (Heap.mk l).objs = l := rfl

theorem read_append_self (l : List Table) (t : Table) :
    (Heap.mk (l ++ [t])).read l.length = t := by
  show (l ++ [t]).getD l.length emptyTable = t
  rw [List.getD_eq_getElem _ _ (by simp)]
  exact List.getElem_concat_length _ _ _ rfl _

theorem read_write_self {h : Heap} {i : Nat} (hi : i < h.objs.length) (t : Table) :
    (h.write i t).read i = t := by
  show (h.objs.set i t).getD i emptyTable = t
  rw [List.getD_eq_getElem _ _ (by simp [hi])]
  exact List.getElem_set_self _

theorem write_objs_length (h : Heap) (i : Nat) (t : Table) :
    (h.write i t).objs.length = h.objs.length :=
  List.length_set _ _ _

theorem take_set {α : Type} {l : List α} {i : Nat} {x : α} {p : Nat} (hpi : p ≤ i) :
    (l.set i x).take p = l.take p := by
  apply List.ext_getElem (by simp [List.length_take])
  intro j h1 h2
  rw [List.getElem_take, List.getElem_take]
  exact List.getElem_set_ne (by
    intro hij
    rw [← hij] at h2
    simp only [List.length_take] at h2
    omega) _

theorem getD_eq_of_take_eq {α : Type} {lbig l : List α} {n : Nat}
    (h : lbig.take n = l) {j : Nat} (hj : j < n) (d : α) :
    lbig.getD j d = l.getD j d := by
  rw [← h]
  by_cases hlt : j < lbig.length
  · have hjt : j < (lbig.take n).length := by
      simp only [List.length_take]
      omega
    rw [List.getD_eq_getElem _ _ hlt, List.getD_eq_getElem _ _ hjt,
        List.getElem_take]
  · rw [List.getD_eq_default _ _ (by omega),
        List.getD_eq_default _ _ (by simp [List.length_take]; omega)]

theorem normHeapFold (cols : List String) :
    ∀ (hh : Heap) (i : Nat), i < hh.objs.length →
      (cols.foldl (fun k col => k.write i (applyDateCol (k.read i) col)) hh).objs.length
          = hh.objs.length ∧
      (cols.foldl (fun k col => k.write i (applyDateCol (k.read i) col)) hh).read i
          = cols.foldl applyDateCol (hh.read i) ∧
      ∀ p ≤ i, (cols.foldl (fun k col =>
          k.write i (applyDateCol (k.read i) col)) hh).objs.take p = hh.objs.take p := by
  induction cols with
  | nil =>
      intro hh i _
      exact ⟨rfl, rfl, fun p _ => rfl⟩
  | cons c cols ih =>
      intro hh i hi
      rw [List.foldl_cons, List.foldl_cons]
      have hlen : (hh.write i (applyDateCol (hh.read i) c)).objs.length
          = hh.objs.length := write_objs_length _ _ _
      have hi' : i < (hh.write i (applyDateCol (hh.read i) c)).objs.length := by
        rw [hlen]; exact hi
      obtain ⟨l1, l2, l3⟩ := ih (hh.write i (applyDateCol (hh.read i) c)) i hi'
      refine ⟨by rw [l1, hlen], ?_, ?_⟩
      · rw [l2, read_write_self hi]
      · intro p hp
        rw [l3 p hp]
        exact take_set hp

theorem normalizeDatesHeap_spec {h : Heap} {i : Nat} (hi : i < h.objs.length)
    (dc : Option (List String)) :
    (normalizeDatesHeap h i dc).objs.length = h.objs.length ∧
    (normalizeDatesHeap h i dc).read i = normalize_dates (h.read i) dc ∧
    ∀ p ≤ i, (normalizeDatesHeap h i dc).objs.take p = h.objs.take p := by
  unfold normalizeDatesHeap normalize_dates
  exact normHeapFold _ h i hi

theorem trim_unfold (t : Table) :
    Table.mk (t.cols.map pyStrip) (t.rows.map (fun r => r.map trimCell))
      = trim_whitespace t := rfl

/-! ### A helper equation for the pipeline -/

theorem clean_claims_eq (u : Table) (dc : Option (List String)) :
    clean_claims u dc =
      ({ cols := (normalize_dates (dropnaCols (dropnaRows (trim_whitespace u))) dc).cols
         rows := dropDuplicates
           (normalize_dates (dropnaCols (dropnaRows (trim_whitespace u))) dc).rows },
       { original_rows := u.rows.length
         original_cols := u.cols.length
         rows_after_dropna :=
           (normalize_dates (dropnaCols (dropnaRows (trim_whitespace u))) dc).rows.length
         rows_after_dedup := (dropDuplicates
           (normalize_dates (dropnaCols (dropnaRows (trim_whitespace u))) dc).rows).length
         final_cols :=
           (normalize_dates (dropnaCols (dropnaRows (trim_whitespace u))) dc).cols.length
         date_cols_used := effectiveDateCols
           (normalize_dates (dropnaCols (dropnaRows (trim_whitespace u))) dc).cols dc }) := rfl

/-! ### The claims -/

/-- C1 (counterexample): the claim "clean(T) contains no all-missing row and
no all-missing column" fails at `badTable`: the guessed date column "date"
holds the unparseable cell "hello", which date normalization (running after
the empty-row/column elision) turns into the missing marker, so the cleaned
table consists of a single all-missing row and a single all-missing column. -/
theorem claim1_counterexample :
    ¬ (clean_claims badTable none).1.noMissingRow ∧
    ¬ (clean_claims badTable none).1.noMissingCol := by decide

/-- C1 (amended): immediately after the empty-row/column elision step of the
pipeline (before date normalization), the table contains no row whose every
cell is the missing marker and no column whose every cell is the missing
marker. -/
theorem claim1_amended (t : Table) (hWF : t.WF) :
    (dropnaCols (dropnaRows (trim_whitespace t))).noMissingRow ∧
    (dropnaCols (dropnaRows (trim_whitespace t))).noMissingCol :=
  ⟨dropnaCols_noMissingRow (dropnaRows_WF (trim_WF hWF))
      (dropnaRows_noMissingRow _),
   dropnaCols_noMissingCol (dropnaRows_WF (trim_WF hWF))⟩

/-- C1 (witness): the amended invariant evaluated at the concrete 5-row
example table. -/
theorem claim1_witness :
    Table.WF statsTable ∧
    ((dropnaCols (dropnaRows (trim_whitespace statsTable))).noMissingRow ∧
     (dropnaCols (dropnaRows (trim_whitespace statsTable))).noMissingCol) :=
  ⟨by decide, claim1_amended statsTable (by decide)⟩

/-- C2 (counterexample): cleaning is not idempotent: re-cleaning the cleaned
`badTable` (whose only cell became missing during date normalization) drops
the all-missing row and column, yielding a different table. -/
theorem claim2_counterexample :
    (clean_claims (clean_claims badTable none).1 none).1 ≠
      (clean_claims badTable none).1 := by decide

/-- C2 (amended): provided the first cleaning's table contains no all-missing
row and no all-missing column (date normalization reintroduced none), a
second run of clean returns the same table unchanged and reports the same
row count at every stage (original = after empty drop = after dedup). -/
theorem claim2_amended (t : Table) (dc : Option (List String)) (hWF : t.WF)
    (h1 : (clean_claims t dc).1.noMissingRow)
    (h2 : (clean_claims t dc).1.noMissingCol) :
    clean_claims (clean_claims t dc).1 dc =
      ((clean_claims t dc).1,
       { original_rows := (clean_claims t dc).1.rows.length
         original_cols := (clean_claims t dc).1.cols.length
         rows_after_dropna := (clean_claims t dc).1.rows.length
         rows_after_dedup := (clean_claims t dc).1.rows.length
         final_cols := (clean_claims t dc).1.cols.length
         date_cols_used := effectiveDateCols (clean_claims t dc).1.cols dc }) := by
  have huWF : ((clean_claims t dc).1).WF := clean_WF hWF dc
  have htr : trim_whitespace (clean_claims t dc).1 = (clean_claims t dc).1 :=
    trim_of_trimmed (clean_trimmed t dc)
  have hdr : dropnaRows (clean_claims t dc).1 = (clean_claims t dc).1 :=
    dropnaRows_fix h1
  have hdcx : dropnaCols (clean_claims t dc).1 = (clean_claims t dc).1 :=
    dropnaCols_fix huWF h2
  have hnm : normalize_dates (clean_claims t dc).1 dc = (clean_claims t dc).1 := by
    apply normalize_fix huWF
    intro i j hi hj hjm
    obtain ⟨c0, hc0⟩ := clean_dateCell hWF dc hi hj hjm
    rw [hc0, normalizeCell_idem]
  have hnd : dropDuplicates (clean_claims t dc).1.rows = (clean_claims t dc).1.rows :=
    dropDuplicates_of_nodup (clean_rows_nodup t dc)
  rw [clean_claims_eq (clean_claims t dc).1 dc, htr, hdr, hdcx, hnm, hnd]

/-- C2 (witness): the amended idempotence at a concrete one-cell table with
no date column. -/
theorem claim2_witness :
    Table.WF idemTable ∧ (clean_claims idemTable none).1.noMissingRow ∧
    (clean_claims idemTable none).1.noMissingCol ∧
    clean_claims (clean_claims idemTable none).1 none =
      ((clean_claims idemTable none).1,
       { original_rows := (clean_claims idemTable none).1.rows.length
         original_cols := (clean_claims idemTable none).1.cols.length
         rows_after_dropna := (clean_claims idemTable none).1.rows.length
         rows_after_dedup := (clean_claims idemTable none).1.rows.length
         final_cols := (clean_claims idemTable none).1.cols.length
         date_cols_used := effectiveDateCols (clean_claims idemTable none).1.cols none }) :=
  ⟨by decide, by decide, by decide,
   claim2_amended idemTable none (by decide) (by decide) (by decide)⟩

/-- C3: date normalization maps an unparseable cell to the missing marker, a
missing cell to the missing marker, and a parseable cell to the fixed ISO
string; in the table, exactly the cells of resolved date columns are
rewritten by this per-cell operation; and in the cleaned table every cell of
a resolved date column is either missing or a string matching the pattern
4 digits, '-', 2 digits, '-', 2 digits. -/
theorem claim3_dates :
    (∀ c : Cell, cellParseDate c = none → normalizeCell c = Cell.missing) ∧
    (normalizeCell Cell.missing = Cell.missing) ∧
    (∀ (c : Cell) (y m d : Nat), cellParseDate c = some (y, m, d) →
      normalizeCell c = Cell.str (isoString y m d) ∧
        isIsoDateString (isoString y m d) = true) ∧
    (∀ (u : Table), u.WF → ∀ (dc : Option (List String)) (i j : Nat),
      i < u.rows.length → j < u.cols.length →
      ((normalize_dates u dc).rows.getD i []).getD j Cell.missing =
        (if u.cols.getD j "" ∈ effectiveDateCols u.cols dc
         then normalizeCell ((u.rows.getD i []).getD j Cell.missing)
         else (u.rows.getD i []).getD j Cell.missing)) ∧
    (∀ (t : Table), t.WF → ∀ (dc : Option (List String)) (j : Nat),
      j < (clean_claims t dc).1.cols.length →
      (clean_claims t dc).1.cols.getD j "" ∈
        effectiveDateCols (clean_claims t dc).1.cols dc →
      ∀ i, i < (clean_claims t dc).1.rows.length →
        ((clean_claims t dc).1.rows.getD i []).getD j Cell.missing = Cell.missing ∨
        ∃ s, ((clean_claims t dc).1.rows.getD i []).getD j Cell.missing = Cell.str s ∧
          isIsoDateString s = true) := by
  refine ⟨fun c h => normalizeCell_of_none h, rfl, ?_, ?_, ?_⟩
  · intro c y m d h
    exact ⟨normalizeCell_of_parse h, isIso_isoString y m d⟩
  · intro u hWF dc i j hi hj
    unfold normalize_dates
    exact normFoldl_cell _ hWF hi hj
  · intro t hWF dc j hj hm i hi
    obtain ⟨c0, hc0⟩ := clean_dateCell hWF dc hi hj hm
    rw [hc0]
    rcases normalizeCell_shape c0 with h | ⟨y, m, d, -, h⟩
    · exact Or.inl h
    · exact Or.inr ⟨isoString y m d, h, isIso_isoString y m d⟩

/-- C3 (witness): the pattern invariant at the DOB cell of the cleaned
concrete example table. -/
theorem claim3_witness :
    Table.WF dobTable ∧
    (((clean_claims dobTable (some ["DOB"])).1.rows.getD 0 []).getD 1 Cell.missing
        = Cell.missing ∨
      ∃ s, ((clean_claims dobTable (some ["DOB"])).1.rows.getD 0 []).getD 1 Cell.missing
          = Cell.str s ∧ isIsoDateString s = true) :=
  ⟨by decide, claim3_dates.2.2.2.2 dobTable (by decide) (some ["DOB"]) 1
    (by decide) (by decide) 0 (by decide)⟩

/-- C4: deduplication equals the spec-transcribed walk that keeps a row iff
it duplicates no earlier row (keeping first occurrences), its result has no
duplicate rows, it preserves the relative order of kept rows (a sublist),
it loses no row value, and hence no two rows of any cleaned table are
element-wise equal. -/
theorem claim4_dedup :
    (∀ l : List (List Cell), dropDuplicates l = specDedup l) ∧
    (∀ l : List (List Cell), (dropDuplicates l).Nodup) ∧
    (∀ l : List (List Cell), List.Sublist (dropDuplicates l) l) ∧
    (∀ (l : List (List Cell)) (x : List Cell), x ∈ dropDuplicates l ↔ x ∈ l) ∧
    (∀ (t : Table) (dc : Option (List String)), ((clean_claims t dc).1).rows.Nodup) :=
  ⟨dropDuplicates_eq_specDedup, dropDuplicates_nodup, dropDuplicates_sublist,
   fun _ _ => mem_dropDuplicates, clean_rows_nodup⟩

/-- C5: the statistics record combines the pre-cleaning row and column
counts, the row count after elision and before dedup, the row count after
dedup, the final column count and the resolved date-column list; at the
concrete 5-by-4 example (one empty row, one empty column, one duplicate
pair) it reports 5, 4, 4, 3, 3. -/
theorem claim5_stats :
    (∀ (t : Table) (dc : Option (List String)),
      (clean_claims t dc).2.original_rows = t.rows.length ∧
      (clean_claims t dc).2.original_cols = t.cols.length ∧
      (clean_claims t dc).2.rows_after_dropna =
        (dropnaCols (dropnaRows (trim_whitespace t))).rows.length ∧
      (clean_claims t dc).2.rows_after_dedup = (clean_claims t dc).1.rows.length ∧
      (clean_claims t dc).2.final_cols = (clean_claims t dc).1.cols.length ∧
      (clean_claims t dc).2.date_cols_used =
        effectiveDateCols (clean_claims t dc).1.cols dc) ∧
    (clean_claims statsTable none).2 =
      { original_rows := 5, original_cols := 4, rows_after_dropna := 4,
        rows_after_dedup := 3, final_cols := 3, date_cols_used := [] } := by
  constructor
  · intro t dc
    exact ⟨rfl, rfl, normFoldl_rows_length _ _, rfl, rfl, rfl⟩
  · decide

/-- C6: with no caller-supplied list, a column is selected as a date column
iff its lowercased name contains one of the substrings "date", "dob",
"dos", "dt" (bare substring occurrence); for columns PatientID,
DateOfBirth, Amount the inferred set is exactly ["DateOfBirth"]. -/
theorem claim6_guess :
    (∀ (cols : List String) (c : String),
      c ∈ guess_date_columns cols ↔
        c ∈ cols ∧ ∃ tok ∈ dateTokens, ∃ pre post,
          (pyLower c).data = pre ++ tok.data ++ post) ∧
    guess_date_columns ["PatientID", "DateOfBirth", "Amount"] = ["DateOfBirth"] := by
  constructor
  · intro cols c
    unfold guess_date_columns
    rw [List.mem_filter]
    simp only [List.any_eq_true]
    constructor
    · rintro ⟨h1, tok, htok, hsub⟩
      exact ⟨h1, tok, htok, (hasSubL_iff _ _).mp hsub⟩
    · rintro ⟨h1, tok, htok, hsub⟩
      exact ⟨h1, tok, htok, (hasSubL_iff _ _).mpr hsub⟩
  · decide

/-- C7: a non-empty explicit date-column list is used exactly: column names
are unchanged (nonexistent names are skipped without error or new columns),
cells of listed columns (and only those) are rewritten by the per-cell
normalization, the statistics echo the caller's list, and at the concrete
DOB example the values "01/02/2020" and " 2020-03-04 " become "2020-01-02"
and "2020-03-04" (trimming happens before date parsing). -/
theorem claim7_explicit (t : Table) (l : List String) (hne : l ≠ []) :
    ((normalize_dates t (some l)).cols = t.cols) ∧
    (∀ col, col ∉ t.cols → applyDateCol t col = t) ∧
    ((clean_claims t (some l)).2.date_cols_used = l) ∧
    (t.WF → ∀ i j, i < t.rows.length → j < t.cols.length →
      ((normalize_dates t (some l)).rows.getD i []).getD j Cell.missing =
        (if t.cols.getD j "" ∈ l
         then normalizeCell ((t.rows.getD i []).getD j Cell.missing)
         else (t.rows.getD i []).getD j Cell.missing)) ∧
    clean_claims dobTable (some ["DOB"]) =
      ({ cols := ["Name", "DOB", "Note"],
         rows := [[Cell.str "a", Cell.str "2020-01-02", Cell.str "x"],
                  [Cell.str "b", Cell.str "2020-03-04", Cell.str "y"]] },
       { original_rows := 2, original_cols := 3, rows_after_dropna := 2,
         rows_after_dedup := 2, final_cols := 3, date_cols_used := ["DOB"] }) := by
  have heff : ∀ cols' : List String, effectiveDateCols cols' (some l) = l := by
    intro cols'
    show (if l.isEmpty = true then guess_date_columns cols' else l) = l
    rw [if_neg]
    simpa using hne
  refine ⟨?_, ?_, ?_, ?_, by decide⟩
  · unfold normalize_dates
    rw [heff]
    exact normFoldl_cols l t
  · intro col hcol
    unfold applyDateCol
    rw [if_neg hcol]
  · show effectiveDateCols ((clean_claims t (some l)).1).cols (some l) = l
    exact heff _
  · intro hWF i j hi hj
    unfold normalize_dates
    rw [heff]
    exact normFoldl_cell l hWF hi hj

/-- C7 (witness): the statistics echo the explicit list at the concrete DOB
example. -/
theorem claim7_witness :
    (["DOB"] : List String) ≠ [] ∧
    (clean_claims dobTable (some ["DOB"])).2.date_cols_used = ["DOB"] :=
  ⟨by decide, (claim7_explicit dobTable ["DOB"] (by decide)).2.2.1⟩

/-- C8: elision removes exactly the all-missing rows (a row of zeros or
empty strings is kept), then exactly the columns all-missing across the
remaining rows: rows are filtered first, every surviving column has a
non-missing cell in the post-row-filter table, the surviving column count
equals the number of non-empty columns of the post-row-filter table, and
every column with a non-missing cell survives. -/
theorem claim8_elision (t : Table) (hWF : t.WF) :
    ((dropnaRows t).rows =
      t.rows.filter (fun r => decide (∃ c ∈ r, c ≠ Cell.missing))) ∧
    ((dropnaRows t).cols = t.cols) ∧
    (∀ r, r ∈ (dropnaRows t).rows ↔ r ∈ t.rows ∧ ∃ c ∈ r, c ≠ Cell.missing) ∧
    (∀ j, j < (dropnaCols (dropnaRows t)).cols.length →
      ∃ r ∈ (dropnaCols (dropnaRows t)).rows, r.getD j Cell.missing ≠ Cell.missing) ∧
    ((dropnaCols (dropnaRows t)).cols.length =
      ((List.range t.cols.length).filter (fun j =>
        (dropnaRows t).rows.any
          (fun r => !(r.getD j Cell.missing == Cell.missing)))).length) ∧
    (∀ j, j < t.cols.length →
      (∃ r ∈ (dropnaRows t).rows, r.getD j Cell.missing ≠ Cell.missing) →
      t.cols.getD j "" ∈ (dropnaCols (dropnaRows t)).cols) := by
  refine ⟨?_, rfl, fun r => mem_dropnaRows, ?_, ?_, ?_⟩
  · show t.rows.filter _ = t.rows.filter _
    apply List.filter_congr
    intro r _
    by_cases h : ∃ c ∈ r, c ≠ Cell.missing
    · rw [decide_eq_true h, Bool.not_eq_true', List.all_eq_false]
      obtain ⟨c, hc, hne⟩ := h
      exact ⟨c, hc, by simpa using hne⟩
    · rw [decide_eq_false h]
      push_neg at h
      have hall : r.all (fun c => c == Cell.missing) = true :=
        List.all_eq_true.mpr (fun c hc => by simpa using h c hc)
      rw [hall]
      rfl
  · exact dropnaCols_noMissingCol (dropnaRows_WF hWF)
  · show (applyMask (colMask (dropnaRows t)) (dropnaRows t).cols).length = _
    rw [applyMask_length _ _ (colMask_length _).symm]
    unfold colMask
    rw [List.filter_map, List.length_map]
    rfl
  · intro j hj hex
    have hmb : (colMask (dropnaRows t)).getD j false = true := by
      rw [colMask_getD (dropnaRows t) hj, List.any_eq_true]
      obtain ⟨r, hr, hne⟩ := hex
      exact ⟨r, hr, by simpa using hne⟩
    exact getD_mem_applyMask "" (colMask (dropnaRows t)) (dropnaRows t).cols
      (colMask_length _).symm j (by rw [colMask_length]; exact hj) hmb

/-- C8 (witness): the elision characterization at the concrete 5-by-4
example table. -/
theorem claim8_witness :
    Table.WF statsTable ∧
    (dropnaCols (dropnaRows statsTable)).cols.length =
      ((List.range statsTable.cols.length).filter (fun j =>
        (dropnaRows statsTable).rows.any
          (fun r => !(r.getD j Cell.missing == Cell.missing)))).length :=
  ⟨by decide, (claim8_elision statsTable (by decide)).2.2.2.2.1⟩

/-- C9: an input table with zero rows cleans, without any failure, to a
table with zero rows, and the statistics report zero at every row-count
stage. -/
theorem claim9_empty (cols : List String) (dc : Option (List String)) :
    (clean_claims (Table.mk cols []) dc).1.rows = [] ∧
    (clean_claims (Table.mk cols []) dc).2.original_rows = 0 ∧
    (clean_claims (Table.mk cols []) dc).2.rows_after_dropna = 0 ∧
    (clean_claims (Table.mk cols []) dc).2.rows_after_dedup = 0 := by
  have h3 : (dropnaCols (dropnaRows (trim_whitespace (Table.mk cols [])))).rows = [] := rfl
  have h4len : (normalize_dates (dropnaCols (dropnaRows
      (trim_whitespace (Table.mk cols [])))) dc).rows.length = 0 := by
    unfold normalize_dates
    rw [normFoldl_rows_length, h3]
    rfl
  have h4 : (normalize_dates (dropnaCols (dropnaRows
      (trim_whitespace (Table.mk cols [])))) dc).rows = [] :=
    List.length_eq_zero.mp h4len
  refine ⟨?_, rfl, h4len, ?_⟩
  · show dropDuplicates (normalize_dates (dropnaCols (dropnaRows
      (trim_whitespace (Table.mk cols [])))) dc).rows = []
    rw [h4]
    rfl
  · show (dropDuplicates (normalize_dates (dropnaCols (dropnaRows
      (trim_whitespace (Table.mk cols [])))) dc).rows).length = 0
    rw [h4]
    rfl

/-- C10: clean never modifies the caller's frame: in the heap model, every
object present before the call (the input frame included) is unchanged
afterwards — the in-place date assignments hit only the freshly allocated
dropna result — and the object returned, together with the statistics,
coincides with the pure pipeline. -/
theorem claim10_frame (h : Heap) (i : Nat) (dc : Option (List String)) :
    (cleanClaimsHeap h i dc).1.objs.take h.objs.length = h.objs ∧
    (∀ j, j < h.objs.length → (cleanClaimsHeap h i dc).1.read j = h.read j) ∧
    (cleanClaimsHeap h i dc).1.read (cleanClaimsHeap h i dc).2.1 =
      (clean_claims (h.read i) dc).1 ∧
    (cleanClaimsHeap h i dc).2.2 = (clean_claims (h.read i) dc).2 := by
  simp only [cleanClaimsHeap, alloc_fst, alloc_snd, objs_mk, read_append_self,
    trim_unfold]
  set t := h.read i with ht
  set A1 : Table := { cols := List.map pyStrip t.cols, rows := t.rows } with hA1
  set T4 : Table := dropnaCols (dropnaRows (trim_whitespace t)) with hT4
  set L4 : List Table :=
    h.objs ++ [A1] ++ [trim_whitespace t] ++ [dropnaRows (trim_whitespace t)] with hL4
  have hbound : L4.length < (Heap.mk (L4 ++ [T4])).objs.length := by
    simp only [objs_mk, List.length_append, List.length_cons, List.length_nil]
    omega
  obtain ⟨hlen5, hread5, htake5⟩ := normalizeDatesHeap_spec hbound dc
  set h5 := normalizeDatesHeap (Heap.mk (L4 ++ [T4])) L4.length dc with hh5
  set t5 := h5.read L4.length with ht5q
  rw [read_append_self] at hread5
  have hlenL4 : h.objs.length ≤ L4.length := by
    rw [hL4]
    simp only [List.length_append, List.length_cons, List.length_nil]
    omega
  have htake0 : h5.objs.take h.objs.length = h.objs := by
    rw [htake5 h.objs.length hlenL4]
    show (L4 ++ [T4]).take h.objs.length = h.objs
    rw [List.take_append_of_le_length hlenL4, hL4,
        List.take_append_of_le_length (by
          simp only [List.length_append, List.length_cons, List.length_nil]; omega),
        List.take_append_of_le_length (by
          simp only [List.length_append, List.length_cons, List.length_nil]; omega),
        List.take_append_of_le_length (le_refl _), List.take_length]
  have hlen5' : h.objs.length ≤ h5.objs.length := by
    rw [hlen5]
    simp only [objs_mk, List.length_append, List.length_cons, List.length_nil]
    omega
  have hfull : List.take h.objs.length
      (h5.objs ++ [({ cols := t5.cols, rows := dropDuplicates t5.rows } : Table)])
        = h.objs := by
    rw [List.take_append_of_le_length hlen5']
    exact htake0
  refine ⟨hfull, ?_, ?_, ?_⟩
  · intro j hj
    show (h5.objs ++ [({ cols := t5.cols, rows := dropDuplicates t5.rows } : Table)]).getD
        j emptyTable = h.objs.getD j emptyTable
    exact getD_eq_of_take_eq hfull hj _
  · rw [hread5, hT4, clean_claims_eq]
  · rw [hread5, hT4, clean_claims_eq]

/-- C10 (witness): on a one-object heap, the caller's frame reads back
unchanged after the call. -/
theorem claim10_witness :
    (0 : Nat) < (Heap.mk [idemTable]).objs.length ∧
    (cleanClaimsHeap (Heap.mk [idemTable]) 0 none).1.read 0 =
      (Heap.mk [idemTable]).read 0 :=
  ⟨by decide, (claim10_frame (Heap.mk [idemTable]) 0 none).2.1 0 (by decide)⟩
